import Mathlib

/-!
Verification of the lantz_core attribute-access engine.

Shallow embedding of the relevant parts of the repository:
* `src/lantz_core/features/feature.py` — `get_chain` / `set_chain` (retry
  with reconnect), `Feature._get` / `Feature._set` (cache layer).
* `src/lantz_core/features/util.py` — `MethodsComposer` and its operations.
* `src/lantz_core/has_features.py` — the metaclass steps `clone_if_needed`,
  `customize_feats` and the `set_feat` customization.
* `src/lantz_core/features/register.py` — `Register.byte_to_dict` /
  `Register.dict_to_byte`.
* `src/lantz_core/channel.py` — `ChannelContainer.__getitem__` and
  `Channel.lock`.
* `src/lantz_core/limits.py` — `IntLimitsValidator`.

Exceptions are modelled with `Except`, Python mutable state by explicit state
passing, Python object identity by explicit heap addresses (`Nat` references).
-/

namespace LantzCore

/-! ### Retry chains (`features/feature.py`, `get_chain` / `set_chain`)

The read pipeline of a `Feature` is: `pre_get`, then a retry loop around the
`get` stage (`while i < feat._retries`, reconnecting between attempts on an
exception belonging to `driver.retries_exceptions`), then `post_get`.
The `get` stage is modelled as an attempt-indexed oracle `Nat → Except E V`
(the instrument may answer differently after a reconnect); `retryable`
models membership in `driver.retries_exceptions`. -/

/-- Read pipeline of a Feature: `pre_get`, `get` stage (attempt indexed),
`post_get`, and the `retries` count (`feat._retries`). -/
structure GetPipeline (E V W : Type) where
  pre_get : Except E Unit
  getStage : Nat → Except E V
  post_get : V → Except E W
  retries : Nat

/-- Write pipeline of a Feature: `pre_set`, `set` stage (attempt indexed,
receiving the `pre_set`-transformed value), `post_set`, and `retries`. -/
structure SetPipeline (E V I R : Type) where
  pre_set : V → Except E I
  setStage : Nat → I → Except E R
  post_set : V → I → R → Except E Unit
  retries : Nat

/-- Result of running a chain: outcome, number of calls of the central
(read / write) stage, number of `reopen_connection` calls. -/
structure ChainRes (E W : Type) where
  result : Except E W
  calls : Nat
  reopens : Nat

/-- The retry loop shared by `get_chain` and `set_chain`.

In the source, `i` starts at `-1` and is incremented at the top of each
iteration, so the stage runs for `i = 0, …, retries`.  An exception of a
retryable kind triggers `reopen_connection` and another attempt while
`i != retries`; the last failure, and any non-retryable exception, is
re-raised.  `i` is the current attempt index and `rem` the number of
attempts still allowed after this one (`rem = retries - i`). -/
def retryLoop {E V : Type} (retryable : E → Bool) (stage : Nat → Except E V) :
    Nat → Nat → Except E V × Nat × Nat
  | i, 0 => (stage i, 1, 0)
  | i, rem + 1 =>
    match stage i with
    | .ok v => (.ok v, 1, 0)
    | .error e =>
      if retryable e then
        let r := retryLoop retryable stage (i + 1) rem
        (r.1, r.2.1 + 1, r.2.2 + 1)
      else
        (.error e, 1, 0)

/-- `get_chain` from `features/feature.py`: `pre_get`, retry loop around the
`get` stage, `post_get`. -/
def get_chain {E V W : Type} (retryable : E → Bool) (p : GetPipeline E V W) :
    ChainRes E W :=
  match p.pre_get with
  | .error e => ⟨.error e, 0, 0⟩
  | .ok _ =>
    let r := retryLoop retryable p.getStage 0 p.retries
    match r.1 with
    | .error e => ⟨.error e, r.2.1, r.2.2⟩
    | .ok v =>
      match p.post_get v with
      | .error e => ⟨.error e, r.2.1, r.2.2⟩
      | .ok w => ⟨.ok w, r.2.1, r.2.2⟩

/-- `set_chain` from `features/feature.py`: `pre_set` transforms the user
value, the retry loop invokes the `set` stage with the transformed value,
`post_set` checks the operation. -/
def set_chain {E V I R : Type} (retryable : E → Bool) (p : SetPipeline E V I R)
    (value : V) : ChainRes E Unit :=
  match p.pre_set value with
  | .error e => ⟨.error e, 0, 0⟩
  | .ok iv =>
    let r := retryLoop retryable (fun k => p.setStage k iv) 0 p.retries
    match r.1 with
    | .error e => ⟨.error e, r.2.1, r.2.2⟩
    | .ok resp =>
      match p.post_set value iv resp with
      | .error e => ⟨.error e, r.2.1, r.2.2⟩
      | .ok _ => ⟨.ok (), r.2.1, r.2.2⟩

/-- If every attempt from `i` to `i + rem` fails with a retryable error, the
loop performs `rem + 1` stage calls, `rem` reconnections, and re-raises the
outcome of the last attempt. -/
theorem retryLoop_all_fail {E V : Type} (retryable : E → Bool)
    (stage : Nat → Except E V) :
    ∀ rem i, (∀ k, i ≤ k → k ≤ i + rem →
        ∃ e, stage k = .error e ∧ retryable e = true) →
      retryLoop retryable stage i rem = (stage (i + rem), rem + 1, rem) := by
  intro rem
  induction rem with
  | zero => intro i _; simp [retryLoop]
  | succ n ih =>
    intro i h
    obtain ⟨e, he, hr⟩ := h i (Nat.le_refl i) (Nat.le_add_right _ _)
    have hrec := ih (i + 1) (fun k hk1 hk2 =>
      h k (Nat.le_of_succ_le hk1) (by omega))
    simp only [retryLoop, he, hr, if_true, hrec]
    have : i + 1 + n = i + (n + 1) := by omega
    rw [this]

/-- C1: with `retries = N`, a read stage that fails on every attempt with an
exception of a retryable kind (`driver.retries_exceptions`) is invoked exactly
`N + 1` times, `reopen_connection` is invoked exactly `N` times, and the final
exception propagates to the caller unchanged; the same holds for the write
pipeline. -/
theorem retry_counts_on_persistent_failure {E V W I R : Type}
    (retryable : E → Bool) (gp : GetPipeline E V W) (sp : SetPipeline E V I R)
    (value : V) (iv : I) (N : Nat) (eg es : E)
    (hpre : gp.pre_get = .ok ()) (hgret : gp.retries = N)
    (hg : ∀ k, k ≤ N → ∃ e, gp.getStage k = .error e ∧ retryable e = true)
    (hgN : gp.getStage N = .error eg)
    (hps : sp.pre_set value = .ok iv) (hsret : sp.retries = N)
    (hs : ∀ k, k ≤ N → ∃ e, sp.setStage k iv = .error e ∧ retryable e = true)
    (hsN : sp.setStage N iv = .error es) :
    get_chain retryable gp = ⟨.error eg, N + 1, N⟩ ∧
      set_chain retryable sp value = ⟨.error es, N + 1, N⟩ := by
  constructor
  · have hloop := retryLoop_all_fail retryable gp.getStage N 0
      (fun k hk0 hkN => hg k (by omega))
    simp only [get_chain, hpre, hgret, hloop, Nat.zero_add, hgN]
  · have hloop := retryLoop_all_fail retryable (fun k => sp.setStage k iv) N 0
      (fun k hk0 hkN => hs k (by omega))
    simp only [set_chain, hps, hsret, hloop, Nat.zero_add, hsN]

/-- Witness for C1 at `N = 2`: an always-failing stage with error code `7`
yields 3 stage calls, 2 reconnections and the final error. -/
theorem retry_counts_on_persistent_failure_witness :
    get_chain (fun _ => true)
      (⟨.ok (), fun _ => .error 7, fun v => .ok v, 2⟩ :
        GetPipeline Nat Nat Nat) = ⟨.error 7, 3, 2⟩ ∧
      set_chain (fun _ => true)
        (⟨fun v => .ok (v + 1), fun _ _ => .error 9, fun _ _ _ => .ok (), 2⟩ :
          SetPipeline Nat Nat Nat Nat) 5 = ⟨.error 9, 3, 2⟩ :=
  retry_counts_on_persistent_failure (fun _ => true)
    ⟨.ok (), fun _ => .error 7, fun v => .ok v, 2⟩
    ⟨fun v => .ok (v + 1), fun _ _ => .error 9, fun _ _ _ => .ok (), 2⟩
    5 6 2 7 9 rfl rfl (fun _ _ => ⟨7, rfl, rfl⟩) rfl rfl rfl
    (fun _ _ => ⟨9, rfl, rfl⟩) rfl

/-! ### Cache layer (`features/feature.py`, `Feature._get` / `Feature._set`)

`Feature._get`: under the driver lock, return the cached value if present,
otherwise run `get_chain`; on success store the result when
`driver.use_cache`.  `Feature._set`: return immediately when the new value
compares equal (`==`) to the cached one, otherwise run `set_chain`; on
success store the user-supplied value when `driver.use_cache`.  The chain is
passed as its outcome (`Except E V`); the returned `Bool` records whether the
chain (and hence any pipeline stage) was invoked at all. -/

/-- The per-instance cache `driver._cache`, a Python dict. -/
def cacheLookup {V : Type} (n : String) : List (String × V) → Option V
  | [] => none
  | (k, v) :: rest => if k = n then some v else cacheLookup n rest

/-- `cache[name] = val` on a Python dict: overwrite or add. -/
def cacheInsert {V : Type} (n : String) (v : V) :
    List (String × V) → List (String × V)
  | [] => [(n, v)]
  | (k, w) :: rest =>
    if k = n then (n, v) :: rest else (k, w) :: cacheInsert n v rest

/-- `Feature._get`: cache hit returns the cached value without invoking the
chain; on a miss the chain runs, and a successful result is cached when
`use_cache` holds.  Returns (outcome, new cache, chain invoked?). -/
def feature_get {E V : Type} (useCache : Bool) (cache : List (String × V))
    (name : String) (chain : Except E V) :
    Except E V × List (String × V) × Bool :=
  match cacheLookup name cache with
  | some v => (.ok v, cache, false)
  | none =>
    match chain with
    | .error e => (.error e, cache, true)
    | .ok val => (.ok val, if useCache then cacheInsert name val cache else cache, true)

/-- `Feature._set`: if the cached value compares equal (`==`) to the new one,
return without invoking the chain; otherwise run the chain and, on success,
cache the user-supplied value when `use_cache` holds. -/
def feature_set {E V : Type} [BEq V] (useCache : Bool)
    (cache : List (String × V)) (name : String) (value : V)
    (chain : Except E Unit) :
    Except E Unit × List (String × V) × Bool :=
  let proceed : Except E Unit × List (String × V) × Bool :=
    match chain with
    | .error e => (.error e, cache, true)
    | .ok _ =>
      (.ok (), if useCache then cacheInsert name value cache else cache, true)
  match cacheLookup name cache with
  | some c => if value == c then (.ok (), cache, false) else proceed
  | none => proceed

/-- A cache-relevant pipeline invocation on a caching-enabled host, with the
chain outcome supplied as an oracle (head of a trace list = most recent). -/
inductive CacheEv (E V : Type) where
  | get (name : String) (chain : Except E V)
  | set (name : String) (value : V) (chain : Except E Unit)

/-- Replay a trace of get / set invocations (most recent first) through
`Feature._get` / `Feature._set` on a host with caching enabled, starting from
an empty cache, and return the final cache. -/
def runCacheTrace {E V : Type} [BEq V] : List (CacheEv E V) → List (String × V)
  | [] => []
  | .get n chain :: rest => (feature_get true (runCacheTrace rest) n chain).2.1
  | .set n v chain :: rest =>
    (feature_set true (runCacheTrace rest) n v chain).2.1

/-- Modelled from the spec: "a cache hit always reflects the last successfully
completed write, or the last successful read, whichever is more recent".
The expected cache entry for `name` after a trace (most recent first): a
successful set stores its value, a cache-missing get stores the chain's
successful result, failures leave the previous answer. -/
def specLastValue {E V : Type} [BEq V] :
    List (CacheEv E V) → String → Option V
  | [], _ => none
  | .get n chain :: rest, name =>
    if n = name then
      match specLastValue rest name with
      | some v => some v
      | none =>
        match chain with
        | .ok v => some v
        | .error _ => none
    else specLastValue rest name
  | .set n v chain :: rest, name =>
    if n = name then
      match specLastValue rest name with
      | some c =>
        if v == c then some v
        else
          match chain with
          | .ok _ => some v
          | .error _ => some c
      | none =>
        match chain with
        | .ok _ => some v
        | .error _ => none
    else specLastValue rest name

theorem cacheLookup_insert_self {V : Type} (n : String) (v : V)
    (c : List (String × V)) : cacheLookup n (cacheInsert n v c) = some v := by
  induction c with
  | nil => simp [cacheInsert, cacheLookup]
  | cons kv rest ih =>
    obtain ⟨k, w⟩ := kv
    by_cases h : k = n
    · simp [cacheInsert, h, cacheLookup]
    · simp [cacheInsert, h, cacheLookup, ih]

theorem cacheLookup_insert_ne {V : Type} (n m : String) (v : V)
    (c : List (String × V)) (h : n ≠ m) :
    cacheLookup m (cacheInsert n v c) = cacheLookup m c := by
  induction c with
  | nil => simp [cacheInsert, cacheLookup, h]
  | cons kv rest ih =>
    obtain ⟨k, w⟩ := kv
    by_cases hk : k = n
    · subst hk
      simp [cacheInsert, cacheLookup, h]
    · simp [cacheInsert, hk, cacheLookup, ih]

/-- C2: on a caching-enabled host the cache entry of a feature, whenever
present, is the value of the most recent successfully completed set or the
value returned by the most recent successful get (refinement against
`specLastValue`, transcribed from the spec); moreover any get or set whose
pipeline raises leaves the cache unchanged. -/
theorem cache_reflects_last_success {E V : Type} [BEq V] [LawfulBEq V] :
    (∀ (evs : List (CacheEv E V)) (name : String),
      cacheLookup name (runCacheTrace evs) = specLastValue evs name) ∧
    (∀ (uc : Bool) (cache : List (String × V)) (name : String)
        (chain : Except E V) (e : E),
      (feature_get uc cache name chain).1 = .error e →
      (feature_get uc cache name chain).2.1 = cache) ∧
    (∀ (uc : Bool) (cache : List (String × V)) (name : String) (v : V)
        (chain : Except E Unit) (e : E),
      (feature_set uc cache name v chain).1 = .error e →
      (feature_set uc cache name v chain).2.1 = cache) := by
  refine ⟨?_, ?_, ?_⟩
  · intro evs
    induction evs with
    | nil => intro name; rfl
    | cons ev rest ih =>
      intro name
      cases ev with
      | get n chain =>
        simp only [runCacheTrace, feature_get, specLastValue]
        cases hc : cacheLookup n (runCacheTrace rest) with
        | some v =>
          by_cases hn : n = name
          · subst hn
            have hs : specLastValue rest n = some v := (ih n).symm.trans hc
            simp [hs, hc]
          · simp [hn, hc, ih name]
        | none =>
          cases chain with
          | error e =>
            by_cases hn : n = name
            · subst hn
              have hs : specLastValue rest n = none := (ih n).symm.trans hc
              simp [hs, hc]
            · simp [hn, hc, ih name]
          | ok val =>
            by_cases hn : n = name
            · subst hn
              have hs : specLastValue rest n = none := (ih n).symm.trans hc
              simp [hs, hc, cacheLookup_insert_self]
            · simp [hn, hc, ih name, cacheLookup_insert_ne n name val _ hn]
      | set n v chain =>
        simp only [runCacheTrace, feature_set, specLastValue]
        cases hc : cacheLookup n (runCacheTrace rest) with
        | some c =>
          by_cases hb : v == c
          · have hvc : v = c := eq_of_beq hb
            by_cases hn : n = name
            · subst hn
              have hs : specLastValue rest n = some c := (ih n).symm.trans hc
              simp [hs, hc, hb, hvc]
            · simp [hn, hc, hb, ih name]
          · cases chain with
            | error e =>
              by_cases hn : n = name
              · subst hn
                have hs : specLastValue rest n = some c := (ih n).symm.trans hc
                simp [hs, hc, hb]
              · simp [hn, hc, hb, ih name]
            | ok u =>
              by_cases hn : n = name
              · subst hn
                have hs : specLastValue rest n = some c := (ih n).symm.trans hc
                simp [hs, hc, hb, cacheLookup_insert_self]
              · simp [hn, hc, hb, ih name, cacheLookup_insert_ne n name v _ hn]
        | none =>
          cases chain with
          | error e =>
            by_cases hn : n = name
            · subst hn
              have hs : specLastValue rest n = none := (ih n).symm.trans hc
              simp [hs, hc]
            · simp [hn, hc, ih name]
          | ok u =>
            by_cases hn : n = name
            · subst hn
              have hs : specLastValue rest n = none := (ih n).symm.trans hc
              simp [hs, hc, cacheLookup_insert_self]
            · simp [hn, hc, ih name, cacheLookup_insert_ne n name v _ hn]
  · intro uc cache name chain e herr
    revert herr
    simp only [feature_get]
    cases hc : cacheLookup name cache with
    | some v => intro herr; rfl
    | none =>
      cases chain with
      | error e' => intro _; rfl
      | ok val => intro herr; simp at herr
  · intro uc cache name v chain e herr
    revert herr
    simp only [feature_set]
    cases hc : cacheLookup name cache with
    | some c =>
      by_cases hb : v == c
      · simp [hb]
      · cases chain with
        | error e' => intro _; simp [hb]
        | ok u => simp [hb]
    | none =>
      cases chain with
      | error e' => intro _; rfl
      | ok u => intro herr; simp at herr

/-- Witness for C2: a concrete trace (a successful set of 5 then a cache-hit
get), a failing get on an empty cache, and a failing set over a stale entry,
each evaluated concretely. -/
theorem cache_reflects_last_success_witness :
    cacheLookup "a" (runCacheTrace (E := Nat)
        [.get "a" (.ok 3), .set "a" 5 (.ok ())]) =
      specLastValue (E := Nat) [.get "a" (.ok 3), .set "a" 5 (.ok ())] "a" ∧
    (feature_get true ([] : List (String × Nat)) "a"
        (.error (7 : Nat))).2.1 = [] ∧
    (feature_set true [("a", (2 : Nat))] "a" 5 (.error (7 : Nat))).2.1 =
      [("a", 2)] :=
  ⟨cache_reflects_last_success.1 [.get "a" (.ok 3), .set "a" 5 (.ok ())] "a",
   cache_reflects_last_success.2.1 true [] "a" (.error 7) 7 rfl,
   cache_reflects_last_success.2.2 true [("a", 2)] "a" 5 (.error 7) 7 rfl⟩

/-- C3: on a caching-enabled host, a get with a present cache entry returns
the cached value without invoking any pipeline stage, a set whose value
compares equal (`==`) to the cached one returns without invoking any pipeline
stage, and after a first write completes successfully a second write of the
same value invokes nothing, so the write stage runs at most once across the
two writes. -/
theorem cache_short_circuit {E V : Type} [BEq V] [LawfulBEq V] :
    (∀ (uc : Bool) (cache : List (String × V)) (name : String) (v : V)
        (chain : Except E V),
      cacheLookup name cache = some v →
      feature_get uc cache name chain = (.ok v, cache, false)) ∧
    (∀ (uc : Bool) (cache : List (String × V)) (name : String) (v c : V)
        (chain : Except E Unit),
      cacheLookup name cache = some c → (v == c) = true →
      feature_set uc cache name v chain = (.ok (), cache, false)) ∧
    (∀ (cache : List (String × V)) (name : String) (v : V)
        (chain1 chain2 : Except E Unit),
      (feature_set true cache name v chain1).1 = .ok () →
      (feature_set true (feature_set true cache name v chain1).2.1
          name v chain2).2.2 = false ∧
      ((feature_set true cache name v chain1).2.2).toNat +
        ((feature_set true (feature_set true cache name v chain1).2.1
            name v chain2).2.2).toNat ≤ 1) := by
  refine ⟨?_, ?_, ?_⟩
  · intro uc cache name v chain h
    simp [feature_get, h]
  · intro uc cache name v c chain hc hb
    simp [feature_set, hc, hb]
  · intro cache name v chain1 chain2 h1
    cases hc : cacheLookup name cache with
    | some c =>
      by_cases hb : v == c
      · have hsnd : (feature_set true cache name v chain1).2.1 = cache := by
          simp [feature_set, hc, hb]
        rw [hsnd]
        have : feature_set (E := E) true cache name v chain2 =
            (.ok (), cache, false) := by simp [feature_set, hc, hb]
        have hran1 : (feature_set (E := E) true cache name v chain1).2.2 =
            false := by simp [feature_set, hc, hb]
        simp [this, hran1]
      · cases chain1 with
        | error e => simp [feature_set, hc, hb] at h1
        | ok u =>
          have hsnd : (feature_set (E := E) true cache name v (.ok u)).2.1 =
              cacheInsert name v cache := by simp [feature_set, hc, hb]
          rw [hsnd]
          have hhit : cacheLookup name (cacheInsert name v cache) = some v :=
            cacheLookup_insert_self name v cache
          have : feature_set (E := E) true (cacheInsert name v cache)
              name v chain2 = (.ok (), cacheInsert name v cache, false) := by
            simp [feature_set, hhit]
          refine ⟨by simp [this], ?_⟩
          cases hr : (feature_set (E := E) true cache name v (.ok u)).2.2 <;>
            simp [this, hr]
    | none =>
      cases chain1 with
      | error e => simp [feature_set, hc] at h1
      | ok u =>
        have hsnd : (feature_set (E := E) true cache name v (.ok u)).2.1 =
            cacheInsert name v cache := by simp [feature_set, hc]
        rw [hsnd]
        have hhit : cacheLookup name (cacheInsert name v cache) = some v :=
          cacheLookup_insert_self name v cache
        have : feature_set (E := E) true (cacheInsert name v cache)
            name v chain2 = (.ok (), cacheInsert name v cache, false) := by
          simp [feature_set, hhit]
        refine ⟨by simp [this], ?_⟩
        cases hr : (feature_set (E := E) true cache name v (.ok u)).2.2 <;>
          simp [this, hr]

/-- Witness for C3: cache hit on `("a", 4)`, equal-value set, and a double
write of `5` on an empty cache whose first chain succeeds. -/
theorem cache_short_circuit_witness :
    feature_get true [("a", (4 : Nat))] "a" (.error (9 : Nat)) =
      (.ok 4, [("a", 4)], false) ∧
    feature_set (E := Nat) true [("a", (4 : Nat))] "a" 4 (.error 9) =
      (.ok (), [("a", 4)], false) ∧
    (feature_set (E := Nat) true
        (feature_set (E := Nat) true ([] : List (String × Nat)) "a" 5
          (.ok ())).2.1 "a" 5 (.ok ())).2.2 = false :=
  ⟨cache_short_circuit.1 true [("a", 4)] "a" 4 (.error 9) rfl,
   cache_short_circuit.2.1 true [("a", 4)] "a" 4 4 (.error 9) rfl (by decide),
   (cache_short_circuit.2.2 [] "a" 5 (.ok ()) (.ok ()) rfl).1⟩

/-- C10: after a successful set of `v` on a caching-enabled host the cache
holds `v` itself — the user-supplied value, for every `pre_set` transform
(`sp` is arbitrary) — and an immediately following get returns exactly `v`
without running the read chain and hence without applying any `post_get`
transform (`gp` is arbitrary). -/
theorem set_caches_user_value {E V I R U : Type} [BEq V] [LawfulBEq V]
    (retryable : E → Bool) (sp : SetPipeline E V I R) (gp : GetPipeline E U V)
    (cache : List (String × V)) (name : String) (v : V)
    (hok : (set_chain retryable sp v).result = .ok ()) :
    cacheLookup name
      (feature_set true cache name v (set_chain retryable sp v).result).2.1 =
      some v ∧
    feature_get true
        (feature_set true cache name v (set_chain retryable sp v).result).2.1
        name (get_chain retryable gp).result =
      (.ok v,
        (feature_set true cache name v
          (set_chain retryable sp v).result).2.1, false) := by
  rw [hok]
  cases hc : cacheLookup name cache with
  | some c =>
    by_cases hb : v == c
    · have hvc : v = c := eq_of_beq hb
      have hsnd : (feature_set (E := E) true cache name v (.ok ())).2.1 =
          cache := by simp [feature_set, hc, hb]
      rw [hsnd, hvc]
      exact ⟨hc, by simp [feature_get, hc]⟩
    · have hsnd : (feature_set (E := E) true cache name v (.ok ())).2.1 =
          cacheInsert name v cache := by simp [feature_set, hc, hb]
      rw [hsnd]
      have hhit := cacheLookup_insert_self name v cache
      exact ⟨hhit, by simp [feature_get, hhit]⟩
  | none =>
    have hsnd : (feature_set (E := E) true cache name v (.ok ())).2.1 =
        cacheInsert name v cache := by simp [feature_set, hc]
    rw [hsnd]
    have hhit := cacheLookup_insert_self name v cache
    exact ⟨hhit, by simp [feature_get, hhit]⟩

/-- Witness for C10: a `pre_set` that doubles the value and a failing read
chain; after setting 5 the cache holds 5 (not 10) and the get returns 5. -/
theorem set_caches_user_value_witness :
    cacheLookup "a"
      (feature_set true ([] : List (String × Nat)) "a" 5
        (set_chain (fun _ => true)
          (⟨fun v => .ok (2 * v), fun _ iv => .ok iv, fun _ _ _ => .ok (), 0⟩ :
            SetPipeline Nat Nat Nat Nat) 5).result).2.1 = some 5 ∧
    feature_get true
        (feature_set true ([] : List (String × Nat)) "a" 5
          (set_chain (fun _ => true)
            (⟨fun v => .ok (2 * v), fun _ iv => .ok iv, fun _ _ _ => .ok (), 0⟩ :
              SetPipeline Nat Nat Nat Nat) 5).result).2.1
        "a" (get_chain (fun _ => true)
          (⟨.ok (), fun _ => .error 3, fun u => .ok (u + 1), 0⟩ :
            GetPipeline Nat Nat Nat)).result =
      (.ok 5,
        (feature_set true ([] : List (String × Nat)) "a" 5
          (set_chain (fun _ => true)
            (⟨fun v => .ok (2 * v), fun _ iv => .ok iv, fun _ _ _ => .ok (), 0⟩ :
              SetPipeline Nat Nat Nat Nat) 5).result).2.1, false) :=
  set_caches_user_value (fun _ => true)
    ⟨fun v => .ok (2 * v), fun _ iv => .ok iv, fun _ _ _ => .ok (), 0⟩
    ⟨.ok (), fun _ => .error 3, fun u => .ok (u + 1), 0⟩ [] "a" 5 rfl

/-! ### `MethodsComposer` (`features/util.py`)

Parallel lists `_names` / `_methods`; `prepend`, `append`, `add_before`,
`add_after`, `replace`, `remove`.  All insertion operations call
`_remove_duplicate` first; `add_before` / `add_after` / `replace` / `remove`
raise `ValueError` (via `list.index`) when the anchor or id is absent.  A
failed operation is modelled by a `false` flag together with the state as
mutated so far (for `add_before` / `add_after` the duplicate removal has
already happened when `index` raises). -/

/-- Parallel arrays of a `MethodsComposer`: `_names` and `_methods`. -/
structure MethodsComposer (M : Type) where
  names : List String
  methods : List M

/-- `list.index`: index of the first occurrence, `none` when absent. -/
def firstIdx (n : String) : List String → Option Nat
  | [] => none
  | k :: rest => if k = n then some 0 else (firstIdx n rest).map (· + 1)

/-- `list.insert(i, a)` of Python: insert before position `i`, appending when
`i` is past the end. -/
def insertAt {α : Type} : Nat → α → List α → List α
  | 0, a, l => a :: l
  | _ + 1, a, [] => [a]
  | i + 1, a, x :: xs => x :: insertAt i a xs

/-- `MethodsComposer._remove_duplicate`: if the id is present, delete its
first occurrence from both parallel lists. -/
def removeDup {M : Type} (c : MethodsComposer M) (n : String) :
    MethodsComposer M :=
  match firstIdx n c.names with
  | none => c
  | some i => ⟨c.names.eraseIdx i, c.methods.eraseIdx i⟩

/-- The operations of a `MethodsComposer`. -/
inductive MCOp (M : Type) where
  | prepend (n : String) (m : M)
  | append (n : String) (m : M)
  | add_before (anchor n : String) (m : M)
  | add_after (anchor n : String) (m : M)
  | replace (n : String) (m : M)
  | remove (n : String)

/-- One `MethodsComposer` operation; the `Bool` is `false` when the source
raises `ValueError` (absent anchor or id). -/
def applyOp {M : Type} (c : MethodsComposer M) : MCOp M → MethodsComposer M × Bool
  | .prepend n m =>
    let c' := removeDup c n
    (⟨n :: c'.names, m :: c'.methods⟩, true)
  | .append n m =>
    let c' := removeDup c n
    (⟨c'.names ++ [n], c'.methods ++ [m]⟩, true)
  | .add_before a n m =>
    let c' := removeDup c n
    match firstIdx a c'.names with
    | none => (c', false)
    | some i => (⟨insertAt i n c'.names, insertAt i m c'.methods⟩, true)
  | .add_after a n m =>
    let c' := removeDup c n
    match firstIdx a c'.names with
    | none => (c', false)
    | some i =>
      (⟨insertAt (i + 1) n c'.names, insertAt (i + 1) m c'.methods⟩, true)
  | .replace n m =>
    match firstIdx n c.names with
    | none => (c, false)
    | some i => (⟨c.names, c.methods.set i m⟩, true)
  | .remove n =>
    match firstIdx n c.names with
    | none => (c, false)
    | some i => (⟨c.names.eraseIdx i, c.methods.eraseIdx i⟩, true)

/-- A sequence of operations, applied left to right. -/
def applyOps {M : Type} (c : MethodsComposer M) (ops : List (MCOp M)) :
    MethodsComposer M :=
  ops.foldl (fun c op => (applyOp c op).1) c

/-- The `MethodsComposer` invariant: ids are pairwise distinct and the two
parallel lists have the same length. -/
def mcInv {M : Type} (c : MethodsComposer M) : Prop :=
  c.names.Nodup ∧ c.names.length = c.methods.length

/-- The method registered under an id, if any. -/
def mcGet {M : Type} (c : MethodsComposer M) (n : String) : Option M :=
  match firstIdx n c.names with
  | none => none
  | some i => c.methods.get? i

theorem firstIdx_eq_none {n : String} {l : List String}
    (h : firstIdx n l = none) : n ∉ l := by
  induction l with
  | nil => simp
  | cons k rest ih =>
    by_cases hk : k = n
    · simp [firstIdx, hk] at h
    · simp only [firstIdx, hk, if_false] at h
      have hfr : firstIdx n rest = none := by simpa using h
      simp only [List.mem_cons, not_or]
      exact ⟨Ne.symm hk, ih hfr⟩

theorem firstIdx_lt {n : String} {l : List String} {i : Nat}
    (h : firstIdx n l = some i) : i < l.length := by
  induction l generalizing i with
  | nil => simp [firstIdx] at h
  | cons k rest ih =>
    by_cases hk : k = n
    · simp only [firstIdx, hk, if_true, Option.some.injEq] at h
      simp [← h]
    · simp only [firstIdx, hk, if_false, Option.map_eq_some'] at h
      obtain ⟨j, hj, hji⟩ := h
      have := ih hj
      simp only [List.length_cons]
      omega

theorem mem_eraseIdx {α : Type} {x : α} {l : List α} {i : Nat}
    (h : x ∈ l.eraseIdx i) : x ∈ l := by
  induction l generalizing i with
  | nil => simp [List.eraseIdx] at h
  | cons a rest ih =>
    cases i with
    | zero => exact List.mem_cons_of_mem a h
    | succ j =>
      rcases List.mem_cons.1 h with h1 | h2
      · exact h1 ▸ List.mem_cons_self _ _
      · exact List.mem_cons_of_mem a (ih h2)

theorem nodup_eraseIdx {α : Type} {l : List α} (hl : l.Nodup) (i : Nat) :
    (l.eraseIdx i).Nodup := by
  induction l generalizing i with
  | nil => simp [List.eraseIdx]
  | cons a rest ih =>
    cases i with
    | zero => exact (List.nodup_cons.1 hl).2
    | succ j =>
      obtain ⟨ha, hrest⟩ := List.nodup_cons.1 hl
      exact List.nodup_cons.2 ⟨fun hm => ha (mem_eraseIdx hm), ih hrest j⟩

theorem not_mem_eraseIdx_firstIdx {n : String} {l : List String} {i : Nat}
    (hl : l.Nodup) (h : firstIdx n l = some i) : n ∉ l.eraseIdx i := by
  induction l generalizing i with
  | nil => simp [firstIdx] at h
  | cons k rest ih =>
    obtain ⟨hk, hrest⟩ := List.nodup_cons.1 hl
    by_cases hkn : k = n
    · simp only [firstIdx, hkn, if_true, Option.some.injEq] at h
      subst hkn
      simpa [← h, List.eraseIdx] using hk
    · simp only [firstIdx, hkn, if_false, Option.map_eq_some'] at h
      obtain ⟨j, hj, hji⟩ := h
      subst hji
      simp only [List.eraseIdx, List.mem_cons]
      push_neg
      exact ⟨Ne.symm hkn, ih hrest hj⟩

theorem length_eraseIdx_of_lt {α : Type} {l : List α} {i : Nat}
    (h : i < l.length) : (l.eraseIdx i).length + 1 = l.length := by
  induction l generalizing i with
  | nil => simp at h
  | cons a rest ih =>
    cases i with
    | zero => simp [List.eraseIdx]
    | succ j =>
      simp only [List.eraseIdx, List.length_cons]
      have := ih (by simpa using Nat.lt_of_succ_lt_succ h)
      omega

theorem mem_insertAt {α : Type} {x a : α} {l : List α} {i : Nat}
    (h : x ∈ insertAt i a l) : x = a ∨ x ∈ l := by
  induction l generalizing i with
  | nil =>
    cases i <;> simpa [insertAt] using h
  | cons b rest ih =>
    cases i with
    | zero =>
      rcases List.mem_cons.1 h with h1 | h2
      · exact Or.inl h1
      · exact Or.inr h2
    | succ j =>
      rcases List.mem_cons.1 h with h1 | h2
      · exact Or.inr (h1 ▸ List.mem_cons_self _ _)
      · rcases ih h2 with h3 | h4
        · exact Or.inl h3
        · exact Or.inr (List.mem_cons_of_mem b h4)

theorem nodup_insertAt {α : Type} {a : α} {l : List α} (ha : a ∉ l)
    (hl : l.Nodup) (i : Nat) : (insertAt i a l).Nodup := by
  induction l generalizing i with
  | nil => cases i <;> simp [insertAt]
  | cons b rest ih =>
    obtain ⟨hb, hrest⟩ := List.nodup_cons.1 hl
    have hab : a ≠ b := fun h => ha (h ▸ List.mem_cons_self _ _)
    have ha' : a ∉ rest := fun h => ha (List.mem_cons_of_mem b h)
    cases i with
    | zero =>
      exact List.nodup_cons.2 ⟨by simpa using ⟨hab, ha'⟩, hl⟩
    | succ j =>
      refine List.nodup_cons.2 ⟨fun hm => ?_, ih ha' hrest j⟩
      rcases mem_insertAt hm with h1 | h2
      · exact hab h1.symm
      · exact hb h2

theorem length_insertAt {α : Type} (a : α) :
    ∀ (i : Nat) (l : List α), (insertAt i a l).length = l.length + 1
  | 0, _ => rfl
  | _ + 1, [] => rfl
  | i + 1, _ :: xs => by simp [insertAt, length_insertAt a i xs]

theorem firstIdx_insertAt_self {n : String} {l : List String} (hn : n ∉ l) :
    ∀ i, i ≤ l.length → firstIdx n (insertAt i n l) = some i := by
  induction l with
  | nil =>
    intro i hi
    have hi0 : i = 0 := by simpa using hi
    subst hi0
    simp [insertAt, firstIdx]
  | cons k rest ih =>
    intro i hi
    have hk : k ≠ n := fun h => hn (h ▸ List.mem_cons_self _ _)
    have hn' : n ∉ rest := fun h => hn (List.mem_cons_of_mem k h)
    cases i with
    | zero => simp [insertAt, firstIdx]
    | succ j =>
      have hj : j ≤ rest.length := by simpa using Nat.le_of_succ_le_succ hi
      simp [insertAt, firstIdx, hk, ih hn' j hj]

theorem get?_insertAt_self {α : Type} (a : α) :
    ∀ (i : Nat) (l : List α), i ≤ l.length → (insertAt i a l).get? i = some a := by
  intro i
  induction i with
  | zero => intro l _; cases l <;> rfl
  | succ j ih =>
    intro l hi
    cases l with
    | nil => simp at hi
    | cons b rest => simpa [insertAt] using ih rest (Nat.le_of_succ_le_succ hi)

theorem firstIdx_append_self {n : String} {l : List String} (hn : n ∉ l) :
    firstIdx n (l ++ [n]) = some l.length := by
  induction l with
  | nil => simp [firstIdx]
  | cons k rest ih =>
    have hk : k ≠ n := fun h => hn (h ▸ List.mem_cons_self _ _)
    have hn' : n ∉ rest := fun h => hn (List.mem_cons_of_mem k h)
    simp [firstIdx, hk, ih hn']

theorem removeDup_inv {M : Type} {c : MethodsComposer M} (h : mcInv c)
    (n : String) : mcInv (removeDup c n) ∧ n ∉ (removeDup c n).names := by
  obtain ⟨hnd, hlen⟩ := h
  unfold removeDup
  cases hf : firstIdx n c.names with
  | none => exact ⟨⟨hnd, hlen⟩, firstIdx_eq_none hf⟩
  | some i =>
    have hi : i < c.names.length := firstIdx_lt hf
    have hi' : i < c.methods.length := hlen ▸ hi
    refine ⟨⟨nodup_eraseIdx hnd i, ?_⟩, not_mem_eraseIdx_firstIdx hnd hf⟩
    have h1 := length_eraseIdx_of_lt hi
    have h2 := length_eraseIdx_of_lt hi'
    simp only
    omega

theorem applyOp_inv {M : Type} {c : MethodsComposer M} (h : mcInv c)
    (op : MCOp M) : mcInv (applyOp c op).1 := by
  cases op with
  | prepend n m =>
    obtain ⟨⟨hnd, hlen⟩, hnm⟩ := removeDup_inv h n
    simp only [applyOp, mcInv]
    exact ⟨List.nodup_cons.2 ⟨hnm, hnd⟩, by simp [hlen]⟩
  | append n m =>
    obtain ⟨⟨hnd, hlen⟩, hnm⟩ := removeDup_inv h n
    simp only [applyOp, mcInv]
    constructor
    · simp [List.nodup_append, hnd, hnm]
    · simp [hlen]
  | add_before a n m =>
    obtain ⟨⟨hnd, hlen⟩, hnm⟩ := removeDup_inv h n
    simp only [applyOp]
    cases hA : firstIdx a (removeDup c n).names with
    | none => exact ⟨hnd, hlen⟩
    | some i =>
      have hi : i < (removeDup c n).names.length := firstIdx_lt hA
      refine ⟨nodup_insertAt hnm hnd i, ?_⟩
      simp [length_insertAt, hlen]
  | add_after a n m =>
    obtain ⟨⟨hnd, hlen⟩, hnm⟩ := removeDup_inv h n
    simp only [applyOp]
    cases hA : firstIdx a (removeDup c n).names with
    | none => exact ⟨hnd, hlen⟩
    | some i =>
      refine ⟨nodup_insertAt hnm hnd (i + 1), ?_⟩
      simp [length_insertAt, hlen]
  | replace n m =>
    obtain ⟨hnd, hlen⟩ := h
    simp only [applyOp]
    cases hf : firstIdx n c.names with
    | none => exact ⟨hnd, hlen⟩
    | some i => exact ⟨hnd, by simp [hlen]⟩
  | remove n =>
    obtain ⟨hnd, hlen⟩ := h
    simp only [applyOp]
    cases hf : firstIdx n c.names with
    | none => exact ⟨hnd, hlen⟩
    | some i =>
      have hi : i < c.names.length := firstIdx_lt hf
      have hi' : i < c.methods.length := hlen ▸ hi
      refine ⟨nodup_eraseIdx hnd i, ?_⟩
      have h1 := length_eraseIdx_of_lt hi
      have h2 := length_eraseIdx_of_lt hi'
      simp only
      omega

/-- C5: along every sequence of `MethodsComposer` operations the invariant
"each id occurs at most once in the parallel `_names` / `_methods` lists" is
preserved (including through failed operations), and each insertion operation
(`prepend`, `append`, `add_before`, `add_after`) removes any existing entry
with the same id before inserting: afterwards the id occurs at most once, and
on success it is bound exactly to the new method. -/
theorem composer_invariant_and_insertion {M : Type} :
    (∀ (c : MethodsComposer M) (ops : List (MCOp M)),
      mcInv c → mcInv (applyOps c ops)) ∧
    (∀ (c : MethodsComposer M) (n : String) (m : M), mcInv c →
      mcGet (applyOp c (.prepend n m)).1 n = some m ∧
      mcGet (applyOp c (.append n m)).1 n = some m ∧
      (applyOp c (.prepend n m)).1.names.count n = 1 ∧
      (applyOp c (.append n m)).1.names.count n = 1) ∧
    (∀ (c : MethodsComposer M) (a n : String) (m : M), mcInv c →
      ((applyOp c (.add_before a n m)).2 = true →
        mcGet (applyOp c (.add_before a n m)).1 n = some m) ∧
      ((applyOp c (.add_after a n m)).2 = true →
        mcGet (applyOp c (.add_after a n m)).1 n = some m) ∧
      (applyOp c (.add_before a n m)).1.names.count n ≤ 1 ∧
      (applyOp c (.add_after a n m)).1.names.count n ≤ 1) := by
  refine ⟨?_, ?_, ?_⟩
  · intro c ops
    induction ops generalizing c with
    | nil => intro h; exact h
    | cons op rest ih =>
      intro h
      exact ih _ (applyOp_inv h op)
  · intro c n m h
    obtain ⟨⟨hnd, hlen⟩, hnm⟩ := removeDup_inv h n
    refine ⟨?_, ?_, ?_, ?_⟩
    · simp [applyOp, mcGet, firstIdx]
    · simp only [applyOp, mcGet, firstIdx_append_self hnm]
      rw [hlen]
      exact List.get?_concat_length _ _
    · simp [applyOp, List.count_cons_self, List.count_eq_zero.2 hnm]
    · simp [applyOp, List.count_append, List.count_eq_zero.2 hnm]
  · intro c a n m h
    obtain ⟨⟨hnd, hlen⟩, hnm⟩ := removeDup_inv h n
    have hb : mcInv (applyOp c (.add_before a n m)).1 :=
      applyOp_inv h (.add_before a n m)
    have ha : mcInv (applyOp c (.add_after a n m)).1 :=
      applyOp_inv h (.add_after a n m)
    refine ⟨?_, ?_, ?_, ?_⟩
    · simp only [applyOp]
      cases hA : firstIdx a (removeDup c n).names with
      | none => simp
      | some i =>
        intro _
        have hi : i < (removeDup c n).names.length := firstIdx_lt hA
        simp only [mcGet, firstIdx_insertAt_self hnm i (Nat.le_of_lt hi)]
        exact get?_insertAt_self m i _ (by omega)
    · simp only [applyOp]
      cases hA : firstIdx a (removeDup c n).names with
      | none => simp
      | some i =>
        intro _
        have hi : i < (removeDup c n).names.length := firstIdx_lt hA
        simp only [mcGet,
          firstIdx_insertAt_self hnm (i + 1) (Nat.succ_le_of_lt hi)]
        exact get?_insertAt_self m (i + 1) _ (by omega)
    · exact List.nodup_iff_count_le_one.1 hb.1 n
    · exact List.nodup_iff_count_le_one.1 ha.1 n

/-- Witness for C5: re-appending an existing id keeps ids unique and rebinds
the id to the new method, checked on a concrete composer. -/
theorem composer_invariant_and_insertion_witness :
    mcInv (applyOps (⟨["a", "b"], [10, 20]⟩ : MethodsComposer Nat)
      [.append "a" 30, .add_before "b" "c" 40, .remove "b"]) ∧
    mcGet (applyOp (⟨["a", "b"], [10, 20]⟩ : MethodsComposer Nat)
      (.append "a" 30)).1 "a" = some 30 ∧
    (applyOp (⟨["a", "b"], [10, 20]⟩ : MethodsComposer Nat)
      (.append "a" 30)).1.names.count "a" = 1 :=
  have h : mcInv (⟨["a", "b"], [10, 20]⟩ : MethodsComposer Nat) :=
    ⟨by decide, rfl⟩
  ⟨composer_invariant_and_insertion.1 ⟨["a", "b"], [10, 20]⟩
      [.append "a" 30, .add_before "b" "c" 40, .remove "b"] h,
    (composer_invariant_and_insertion.2.1 ⟨["a", "b"], [10, 20]⟩ "a" 30 h).2.1,
    (composer_invariant_and_insertion.2.1
      ⟨["a", "b"], [10, 20]⟩ "a" 30 h).2.2.2⟩

/-! ### Class assembly (`has_features.py`, `HasFeaturesMeta.__new__`)

The metaclass walks the MRO to build `all_feats`, then applies `set_feat`
placeholders and the specially named override methods.  `clone_if_needed`
clones a feature not owned by the class under construction so the base
class's `Feature` object is never mutated.  Python object identity is
modelled by a heap `Nat → Feat` with explicit addresses; the effect of an
override on a feature's pipeline is recorded abstractly in `mods`.

Note on `clone_if_needed` (`has_features.py` line 475): the source executes
`owned_feats.add(feat)`, adding the feature *object* to a set of name
strings, so the later name-membership test `feat.name not in owned_feats` is
unaffected; this is modelled by leaving `owned` unchanged. -/

/-- A feature as seen by the metaclass: its `name` and an abstract record of
the pipeline modifications applied to it. -/
structure Feat where
  name : String
  mods : List String
  deriving DecidableEq

/-- Exception kinds raised by the class-assembly step.  `attributeError` is
what `customize_feats` raises for a missing target; `keyError` is what the
`set_feat` loop raises.  `configurationError` is modelled from the spec: the
spec's error taxonomy names a ConfigurationError for declaration-time
failures, but no such class exists anywhere in the code (`errors.py` defines
only `LantzError` and three unrelated subclasses); the constructor exists
solely so the spec's claim can be stated and compared. -/
inductive AsmError where
  | attributeError (target : String)
  | keyError (target : String)
  | configurationError (target : String)
  deriving DecidableEq

/-- Heap update at one address. -/
def heapSet (i : Nat) (f : Feat) (h : Nat → Feat) : Nat → Feat :=
  fun j => if j = i then f else h j

/-- State of the class-assembly loop: the object heap, the next fresh
address, the accumulated `all_feats` name-to-object map (objects as heap
addresses), and the `owned_feats` name set. -/
structure AsmState where
  heap : Nat → Feat
  next : Nat
  allFeats : List (String × Nat)
  owned : List String

/-- `clone_if_needed`: if the feature's name is not owned by the class under
construction, clone it to a fresh address and rebind `all_feats` (and the
class attribute) to the clone. -/
def cloneIfNeeded (s : AsmState) (fid : Nat) : Nat × AsmState :=
  let f := s.heap fid
  if f.name ∈ s.owned then (fid, s)
  else
    (s.next,
      { heap := heapSet s.next f s.heap
        next := s.next + 1
        allFeats := cacheInsert f.name s.next s.allFeats
        owned := s.owned })

/-- `feat.modify_behavior(...)` applied to the feature at `fid`, recorded
abstractly. -/
def modifyFeat (s : AsmState) (fid : Nat) (mod : String) : AsmState :=
  { s with
    heap := heapSet fid
      { s.heap fid with mods := (s.heap fid).mods ++ [mod] } s.heap }

/-- One iteration of `customize_feats` for an override method whose suffix is
`target`: resolve the target in `all_feats`, clone if needed, modify the
(possibly cloned) feature; raise `AttributeError` when no such feature
exists. -/
def customizeStep (s : AsmState) (target mod : String) :
    Except AsmError AsmState :=
  match cacheLookup target s.allFeats with
  | none => .error (.attributeError target)
  | some fid =>
    let r := cloneIfNeeded s fid
    .ok (modifyFeat r.2 r.1 mod)

/-- One iteration of the `set_feat` loop: `v.customize(all_feats[k])` builds
a brand-new feature (`cls(**kwargs)` plus `copy_custom_behaviors`, modelled
by `recon`), records the name as owned, and rebinds the class attribute. -/
def setFeatStep (recon : Feat → Feat) (s : AsmState) (target : String) :
    Except AsmError AsmState :=
  match cacheLookup target s.allFeats with
  | none => .error (.keyError target)
  | some fid =>
    .ok { heap := heapSet s.next (recon (s.heap fid)) s.heap
          next := s.next + 1
          allFeats := cacheInsert target s.next s.allFeats
          owned := target :: s.owned }

/-- C4: applying an override method (or a `set_feat` placeholder) to a
feature declared on a base class never mutates the base class's feature
object: the subclass is rebound to a fresh address distinct from the base
one, the object at the base address is unchanged, and (for the override
method) the fresh object is a clone of the base one carrying only the new
modification. -/
theorem override_never_mutates_base (s : AsmState) (recon : Feat → Feat)
    (name mod : String) (fid0 : Nat)
    (hlook : cacheLookup name s.allFeats = some fid0)
    (hfresh : fid0 < s.next)
    (hname : (s.heap fid0).name = name)
    (hnotowned : name ∉ s.owned) :
    (∃ s', customizeStep s name mod = .ok s' ∧
      cacheLookup name s'.allFeats = some s.next ∧
      s.next ≠ fid0 ∧
      s'.heap fid0 = s.heap fid0 ∧
      s'.heap s.next =
        { s.heap fid0 with mods := (s.heap fid0).mods ++ [mod] }) ∧
    (∃ s', setFeatStep recon s name = .ok s' ∧
      cacheLookup name s'.allFeats = some s.next ∧
      s.next ≠ fid0 ∧
      s'.heap fid0 = s.heap fid0) := by
  have hne : s.next ≠ fid0 := by omega
  constructor
  · refine ⟨modifyFeat (cloneIfNeeded s fid0).2 (cloneIfNeeded s fid0).1 mod,
      by simp only [customizeStep, hlook], ?_, hne, ?_, ?_⟩
    · simp only [customizeStep, hlook, cloneIfNeeded, hname, hnotowned,
        if_false, modifyFeat]
      simpa [hname] using cacheLookup_insert_self name s.next s.allFeats
    · simp [customizeStep, hlook, cloneIfNeeded, hname, hnotowned,
        modifyFeat, heapSet, hne.symm, Ne.symm hne]
    · simp [customizeStep, hlook, cloneIfNeeded, hname, hnotowned,
        modifyFeat, heapSet]
  · refine ⟨⟨heapSet s.next (recon (s.heap fid0)) s.heap, s.next + 1,
        cacheInsert name s.next s.allFeats, name :: s.owned⟩,
      by simp only [setFeatStep, hlook], ?_, hne, ?_⟩
    · simpa using cacheLookup_insert_self name s.next s.allFeats
    · simp [heapSet, Ne.symm hne]

/-- Witness for C4: a base-declared feature at address 0 on a subclass whose
next fresh address is 1. -/
theorem override_never_mutates_base_witness :
    (∃ s', customizeStep
        ⟨fun _ => ⟨"f", []⟩, 1, [("f", 0)], []⟩ "f" "m" = .ok s' ∧
      cacheLookup "f" s'.allFeats = some 1 ∧
      (1 : Nat) ≠ 0 ∧
      s'.heap 0 = ⟨"f", []⟩ ∧
      s'.heap 1 = ⟨"f", ["m"]⟩) ∧
    (∃ s', setFeatStep (fun f => ⟨f.name, ["rebuilt"]⟩)
        ⟨fun _ => ⟨"f", []⟩, 1, [("f", 0)], []⟩ "f" = .ok s' ∧
      cacheLookup "f" s'.allFeats = some 1 ∧
      (1 : Nat) ≠ 0 ∧
      s'.heap 0 = ⟨"f", []⟩) :=
  override_never_mutates_base ⟨fun _ => ⟨"f", []⟩, 1, [("f", 0)], []⟩
    (fun f => ⟨f.name, ["rebuilt"]⟩) "f" "m" 0 rfl (by decide) rfl
    (by simp)

/-- C6 counterexample: for a class with no feature named `"foo"`, an override
method `_get_foo` makes class assembly raise `AttributeError`
(`has_features.py`, `customize_feats`), which is not the spec's
ConfigurationError — no ConfigurationError class exists in the code. -/
theorem missing_override_target_not_configuration_error :
    customizeStep ⟨fun _ => ⟨"", []⟩, 0, [], []⟩ "foo" "m" =
      .error (.attributeError "foo") ∧
    ∀ t, AsmError.attributeError "foo" ≠ .configurationError t := by
  exact ⟨rfl, fun t h => by cases h⟩

/-- C6 amended: declaring an override method whose suffix names no feature
present on the class or any ancestor (absent from the merged `all_feats`
map) raises an `AttributeError` during class assembly, before any instance
exists. -/
theorem missing_override_target_raises (s : AsmState) (target mod : String)
    (h : cacheLookup target s.allFeats = none) :
    customizeStep s target mod = .error (.attributeError target) := by
  simp [customizeStep, h]

/-- Witness for the amended C6 on a concrete empty class. -/
theorem missing_override_target_raises_witness :
    customizeStep ⟨fun _ => ⟨"", []⟩, 0, [], []⟩ "voltage" "m" =
      .error (.attributeError "voltage") :=
  missing_override_target_raises ⟨fun _ => ⟨"", []⟩, 0, [], []⟩ "voltage" "m"
    rfl

/-! ### `Register` (`features/register.py`)

`Register.__init__` receives 8 names (with `None` marking unused bits) and
replaces every `None` entry by its bit index, so after initialisation a name
is either a user string or a bit index; `byte_to_dict` then maps every bit to
its name (its `if n is not None` filter is vacuous after the replacement, so
all 8 entries are produced), and `dict_to_byte` sums `2 ** names.index(k)`
over the keys bound to `True`. -/

/-- A register bit name after `__init__`: a user name or the bit index that
replaced a `None` entry. -/
inductive RegName where
  | str (s : String)
  | idx (i : Nat)
  deriving DecidableEq

/-- The `None`-replacement loop of `Register.__init__`, with the running bit
index made explicit. -/
def initNamesFrom (i : Nat) : List (Option String) → List RegName
  | [] => []
  | some s :: rest => .str s :: initNamesFrom (i + 1) rest
  | none :: rest => .idx i :: initNamesFrom (i + 1) rest

/-- Name normalisation of `Register.__init__` for the iterable case: exactly
8 names are required (`ValueError` otherwise), `None` entries become bit
indices. -/
def registerNames (ns : List (Option String)) : Except String (List RegName) :=
  if ns.length = 8 then .ok (initNamesFrom 0 ns)
  else .error "Register necessitates 8 names"

/-- The comprehension of `Register.byte_to_dict`, with the running
`enumerate` index explicit. -/
def byteToDictFrom (value : Nat) (i : Nat) :
    List RegName → List (RegName × Bool)
  | [] => []
  | n :: rest => (n, value.testBit i) :: byteToDictFrom value (i + 1) rest

/-- `Register.byte_to_dict`: the (ordered) mapping from bit names to bit
values of a byte. -/
def byte_to_dict (names : List RegName) (value : Nat) :
    List (RegName × Bool) :=
  byteToDictFrom value 0 names

/-- `list.index` on the names tuple (in `dict_to_byte` the key is always one
of the names, so the out-of-list case, where Python raises `ValueError`, is
never reached). -/
def regIndex (n : RegName) : List RegName → Nat
  | [] => 0
  | m :: rest => if m = n then 0 else regIndex n rest + 1

/-- `Register.dict_to_byte`: `sum(2 ** names.index(k) for k in value if
value[k])`. -/
def dict_to_byte (names : List RegName) (d : List (RegName × Bool)) : Nat :=
  ((d.filter (fun kv => kv.2)).map (fun kv => 2 ^ regIndex kv.1 names)).sum

/-- Mapping lookup in the ordered dict produced by `byte_to_dict`. -/
def regLookup (n : RegName) : List (RegName × Bool) → Option Bool
  | [] => none
  | (k, v) :: rest => if k = n then some v else regLookup n rest

/-- Partial sums of the set bits of `b`: positions `i, …, i + len - 1`. -/
def bitsSum (b : Nat) : Nat → Nat → Nat
  | _, 0 => 0
  | i, len + 1 => (if b.testBit i then 2 ^ i else 0) + bitsSum b (i + 1) len

theorem str_mem_initNamesFrom {s : String} :
    ∀ {i : Nat} {ns : List (Option String)},
      RegName.str s ∈ initNamesFrom i ns → s ∈ ns.filterMap id := by
  intro i ns
  induction ns generalizing i with
  | nil => simp [initNamesFrom]
  | cons o rest ih =>
    cases o with
    | some t =>
      intro h
      rcases List.mem_cons.1 h with h1 | h2
      · simp only [RegName.str.injEq] at h1
        simp [List.filterMap_cons, h1]
      · simpa [List.filterMap_cons] using Or.inr (ih h2)
    | none =>
      intro h
      rcases List.mem_cons.1 h with h1 | h2
      · cases h1
      · simpa [List.filterMap_cons] using ih h2

theorem idx_mem_initNamesFrom {j : Nat} :
    ∀ {i : Nat} {ns : List (Option String)},
      RegName.idx j ∈ initNamesFrom i ns → i ≤ j := by
  intro i ns
  induction ns generalizing i with
  | nil => simp [initNamesFrom]
  | cons o rest ih =>
    cases o with
    | some t =>
      intro h
      rcases List.mem_cons.1 h with h1 | h2
      · cases h1
      · exact Nat.le_of_succ_le (ih h2)
    | none =>
      intro h
      rcases List.mem_cons.1 h with h1 | h2
      · simp only [RegName.idx.injEq] at h1
        omega
      · exact Nat.le_of_succ_le (ih h2)

theorem nodup_initNamesFrom {ns : List (Option String)}
    (h : (ns.filterMap id).Nodup) : ∀ i, (initNamesFrom i ns).Nodup := by
  induction ns with
  | nil => intro i; simp [initNamesFrom]
  | cons o rest ih =>
    intro i
    cases o with
    | some t =>
      simp only [List.filterMap_cons, id] at h
      obtain ⟨ht, hrest⟩ := List.nodup_cons.1 h
      refine List.nodup_cons.2 ⟨fun hm => ht (str_mem_initNamesFrom hm),
        ih hrest (i + 1)⟩
    | none =>
      simp only [List.filterMap_cons, id] at h
      refine List.nodup_cons.2 ⟨fun hm => ?_, ih h (i + 1)⟩
      have := idx_mem_initNamesFrom hm
      omega

theorem length_initNamesFrom :
    ∀ (i : Nat) (ns : List (Option String)),
      (initNamesFrom i ns).length = ns.length := by
  intro i ns
  induction ns generalizing i with
  | nil => rfl
  | cons o rest ih =>
    cases o <;> simp [initNamesFrom, ih]

theorem regIndex_get? {full : List RegName} (hnd : full.Nodup) :
    ∀ {j : Nat} {n : RegName}, full.get? j = some n → regIndex n full = j := by
  induction full with
  | nil => intro j n h; simp at h
  | cons k rest ih =>
    intro j n h
    obtain ⟨hk, hrest⟩ := List.nodup_cons.1 hnd
    cases j with
    | zero =>
      simp only [List.get?] at h
      cases h
      simp [regIndex]
    | succ j' =>
      simp only [List.get?] at h
      have hmem : n ∈ rest := List.get?_mem h
      have hkn : k ≠ n := fun he => hk (he ▸ hmem)
      simp [regIndex, hkn, ih hrest h]

theorem dict_to_byte_cons (full : List RegName) (k : RegName) (t : Bool)
    (d : List (RegName × Bool)) :
    dict_to_byte full ((k, t) :: d) =
      (if t then 2 ^ regIndex k full else 0) + dict_to_byte full d := by
  cases t <;> simp [dict_to_byte, List.filter_cons]

theorem dict_to_byte_aux (full : List RegName) (b : Nat) :
    ∀ (suffix : List RegName) (i : Nat),
      (∀ j n, suffix.get? j = some n → regIndex n full = i + j) →
      dict_to_byte full (byteToDictFrom b i suffix) =
        bitsSum b i suffix.length := by
  intro suffix
  induction suffix with
  | nil => intro i _; rfl
  | cons n rest ih =>
    intro i h
    have hn : regIndex n full = i := by simpa using h 0 n rfl
    have hrec := ih (i + 1) (fun j m hm => by
      have := h (j + 1) m (by simpa using hm)
      omega)
    simp only [byteToDictFrom, dict_to_byte_cons, hn, hrec, List.length_cons,
      bitsSum]

theorem regLookup_byteToDictFrom :
    ∀ (names : List RegName), names.Nodup →
      ∀ (i : Nat) (n : RegName) (j b : Nat), names.get? i = some n →
        regLookup n (byteToDictFrom b j names) = some (b.testBit (j + i)) := by
  intro names
  induction names with
  | nil => intro _ i n j b h; simp at h
  | cons k rest ih =>
    intro hnd i n j b h
    obtain ⟨hk, hrest⟩ := List.nodup_cons.1 hnd
    cases i with
    | zero =>
      simp only [List.get?, Option.some.injEq] at h
      subst h
      simp [byteToDictFrom, regLookup]
    | succ i' =>
      simp only [List.get?] at h
      have hmem : n ∈ rest := List.get?_mem h
      have hkn : k ≠ n := fun he => hk (he ▸ hmem)
      have hrec := ih hrest i' n (j + 1) b h
      have harith : j + (i' + 1) = j + 1 + i' := by omega
      simp only [byteToDictFrom, regLookup, hkn, if_false, harith, hrec]

set_option maxRecDepth 4096 in
theorem bitsSum_eq : ∀ b < 256, bitsSum b 0 8 = b := by decide

/-- C7: for a Register declared with 8 bit names (with `None` entries
replaced by their bit index), the read-side conversion of a byte binds each
name to the value of its bit, and the write-side conversion is a left inverse
of the read-side one on every byte `0 ≤ b < 256`. -/
theorem register_byte_dict_roundtrip (ns : List (Option String))
    (names : List RegName) (b : Nat)
    (hok : registerNames ns = .ok names)
    (hnd : (ns.filterMap id).Nodup) (hb : b < 256) :
    (∀ i n, names.get? i = some n →
      regLookup n (byte_to_dict names b) = some (b.testBit i)) ∧
    dict_to_byte names (byte_to_dict names b) = b := by
  unfold registerNames at hok
  by_cases hlen : ns.length = 8
  · rw [if_pos hlen] at hok
    injection hok with hok
    subst hok
    have hndN : (initNamesFrom 0 ns).Nodup := nodup_initNamesFrom hnd 0
    constructor
    · intro i n h
      simpa using regLookup_byteToDictFrom _ hndN i n 0 b h
    · have haux := dict_to_byte_aux (initNamesFrom 0 ns) b
        (initNamesFrom 0 ns) 0
        (fun j n hj => by simpa using regIndex_get? hndN hj)
      rw [byte_to_dict, haux, length_initNamesFrom, hlen]
      exact bitsSum_eq b hb
  · rw [if_neg hlen] at hok
    cases hok

/-- Witness for C7: the spec's example, names `(a, b, None, r, s, t, u, v)`
and byte `0b00000110`; `a` reads `False`, `b` and bit 2 read `True`, and the
round trip reproduces 6. -/
theorem register_byte_dict_roundtrip_witness :
    regLookup (.str "a")
        (byte_to_dict (initNamesFrom 0 [some "a", some "b", none, some "r",
          some "s", some "t", some "u", some "v"]) 6) = some false ∧
      regLookup (.str "b")
        (byte_to_dict (initNamesFrom 0 [some "a", some "b", none, some "r",
          some "s", some "t", some "u", some "v"]) 6) = some true ∧
      regLookup (.idx 2)
        (byte_to_dict (initNamesFrom 0 [some "a", some "b", none, some "r",
          some "s", some "t", some "u", some "v"]) 6) = some true ∧
      dict_to_byte (initNamesFrom 0 [some "a", some "b", none, some "r",
          some "s", some "t", some "u", some "v"])
        (byte_to_dict (initNamesFrom 0 [some "a", some "b", none, some "r",
          some "s", some "t", some "u", some "v"]) 6) = 6 :=
  have h := register_byte_dict_roundtrip
    [some "a", some "b", none, some "r", some "s", some "t", some "u",
      some "v"]
    (initNamesFrom 0 [some "a", some "b", none, some "r", some "s", some "t",
      some "u", some "v"]) 6 rfl (by decide) (by decide)
  ⟨h.1 0 (.str "a") rfl, h.1 1 (.str "b") rfl, h.1 2 (.idx 2) rfl, h.2⟩

/-! ### Channels (`channel.py`, `ChannelContainer.__getitem__`, `Channel.lock`)

`ChannelContainer.__getitem__` returns the cached instance for a known id and
otherwise constructs a `Channel(parent, ch_id, caching_allowed =
parent.use_cache)`, caches and returns it.  `Channel.lock` is a property
returning `self.parent.lock`.  Python instance identity is modelled by a
`ref` address; `nextRef` supplies fresh addresses. -/

/-- The parent driver as seen by a channel: its lock object (as an opaque
token) and `use_cache`. -/
structure ChanParent where
  lock : Nat
  use_cache : Bool
  deriving DecidableEq

/-- One channel instance: its identity (`ref`) and the parent passed at
construction. -/
structure Chan where
  ref : Nat
  parent : ChanParent
  cachingAllowed : Bool
  deriving DecidableEq

/-- `Channel.lock`: delegate to the parent's lock. -/
def Chan.lock (c : Chan) : Nat := c.parent.lock

/-- `ChannelContainer`: the parent, the `_channels` pool keyed by channel id,
and the fresh-address counter. -/
structure ChannelContainer where
  parent : ChanParent
  channels : List (Nat × Chan)
  nextRef : Nat

/-- Lookup in the `_channels` dict. -/
def chanLookup (i : Nat) : List (Nat × Chan) → Option Chan
  | [] => none
  | (k, c) :: rest => if k = i then some c else chanLookup i rest

/-- `ChannelContainer.__getitem__`: return the pooled instance if present,
else construct one with the parent and `caching_allowed = parent.use_cache`,
pool it and return it. -/
def containerGet (s : ChannelContainer) (id : Nat) : Chan × ChannelContainer :=
  match chanLookup id s.channels with
  | some ch => (ch, s)
  | none =>
    let ch : Chan := ⟨s.nextRef, s.parent, s.parent.use_cache⟩
    (ch, ⟨s.parent, (id, ch) :: s.channels, s.nextRef + 1⟩)

/-- Pool invariant: every pooled instance has an address below `nextRef` and
carries the container's parent, and distinct ids are bound to distinct
instances. -/
def chanInv (s : ChannelContainer) : Prop :=
  (∀ p ∈ s.channels, p.2.ref < s.nextRef ∧ p.2.parent = s.parent) ∧
  (∀ p q, p ∈ s.channels → q ∈ s.channels → p.1 ≠ q.1 → p.2.ref ≠ q.2.ref)

theorem chanLookup_mem {i : Nat} {l : List (Nat × Chan)} {c : Chan}
    (h : chanLookup i l = some c) : (i, c) ∈ l := by
  induction l with
  | nil => simp [chanLookup] at h
  | cons p rest ih =>
    obtain ⟨k, ch⟩ := p
    by_cases hk : k = i
    · subst hk
      simp only [chanLookup, if_true] at h
      cases h
      exact List.mem_cons_self _ _
    · simp only [chanLookup, hk, if_false] at h
      exact List.mem_cons_of_mem _ (ih h)

/-- C8: indexing a `ChannelContainer` twice with the same id returns the
identical instance (the first access constructs and pools it), two different
ids yield two distinct instances, every returned channel's `lock` is the
parent's lock object, and the pool invariant is preserved. -/
theorem channel_pool_identity (s : ChannelContainer) (id id1 id2 : Nat)
    (hinv : chanInv s) :
    containerGet (containerGet s id).2 id = containerGet s id ∧
    (id1 ≠ id2 →
      (containerGet s id1).1.ref ≠
        (containerGet (containerGet s id1).2 id2).1.ref) ∧
    Chan.lock (containerGet s id).1 = s.parent.lock ∧
    chanInv (containerGet s id).2 := by
  obtain ⟨href, hdist⟩ := hinv
  refine ⟨?_, ?_, ?_, ?_⟩
  · cases h : chanLookup id s.channels with
    | some ch => simp [containerGet, h]
    | none => simp [containerGet, h, chanLookup]
  · intro hne
    cases h1 : chanLookup id1 s.channels with
    | some c1 =>
      cases h2 : chanLookup id2 s.channels with
      | some c2 =>
        simp only [containerGet, h1, h2]
        exact hdist (id1, c1) (id2, c2) (chanLookup_mem h1)
          (chanLookup_mem h2) hne
      | none =>
        simp only [containerGet, h1, h2]
        have h3 : c1.ref < s.nextRef := (href (id1, c1) (chanLookup_mem h1)).1
        omega
    | none =>
      have hl2 : chanLookup id2
          ((id1, (⟨s.nextRef, s.parent, s.parent.use_cache⟩ : Chan)) ::
            s.channels) = chanLookup id2 s.channels := by
        simp [chanLookup, hne]
      cases h2 : chanLookup id2 s.channels with
      | some c2 =>
        simp only [containerGet, h1, hl2, h2]
        have h3 : c2.ref < s.nextRef := (href (id2, c2) (chanLookup_mem h2)).1
        omega
      | none =>
        simp only [containerGet, h1, hl2, h2]
        omega
  · cases h : chanLookup id s.channels with
    | some ch =>
      simp only [containerGet, h]
      exact congrArg ChanParent.lock (href (id, ch) (chanLookup_mem h)).2
    | none => simp [containerGet, h, Chan.lock]
  · cases h : chanLookup id s.channels with
    | some ch =>
      simp only [containerGet, h]
      exact ⟨href, hdist⟩
    | none =>
      simp only [containerGet, h]
      constructor
      · intro p hp
        rcases List.mem_cons.1 hp with h1 | h2
        · subst h1
          exact ⟨Nat.lt_succ_self _, rfl⟩
        · have := href p h2
          exact ⟨Nat.lt_succ_of_lt this.1, this.2⟩
      · intro p q hp hq hpq
        rcases List.mem_cons.1 hp with hp1 | hp2 <;>
          rcases List.mem_cons.1 hq with hq1 | hq2
        · subst hp1; subst hq1; exact absurd rfl hpq
        · subst hp1
          have := (href q hq2).1
          simp only
          omega
        · subst hq1
          have := (href p hp2).1
          simp only
          omega
        · exact hdist p q hp2 hq2 hpq

/-- Witness for C8 on an empty pool with parent lock token 3: ids 1 and 2. -/
theorem channel_pool_identity_witness :
    containerGet (containerGet ⟨⟨3, true⟩, [], 0⟩ 1).2 1 =
      containerGet ⟨⟨3, true⟩, [], 0⟩ 1 ∧
    (containerGet ⟨⟨3, true⟩, [], 0⟩ 1).1.ref ≠
      (containerGet (containerGet ⟨⟨3, true⟩, [], 0⟩ 1).2 2).1.ref ∧
    Chan.lock (containerGet ⟨⟨3, true⟩, [], 0⟩ 1).1 = 3 :=
  have h := channel_pool_identity ⟨⟨3, true⟩, [], 0⟩ 1 1 2
    ⟨fun p hp => absurd hp (List.not_mem_nil p),
     fun p q hp _ _ => absurd hp (List.not_mem_nil p)⟩
  ⟨h.1, h.2.1 (by decide), h.2.2.1⟩

/-! ### Integer limits (`limits.py`, `IntLimitsValidator`)

`__init__` requires at least one of `min` / `max` (else `ValueError`; the
isinstance checks are static in this embedding) and selects one of six
validation methods; `if step:` is Python truthiness, so `step = 0` or `None`
selects the step-less variant.  Python's `%` on a positive modulus agrees
with `Int.emod`. -/

/-- The state of an `IntLimitsValidator`: `minimum`, `maximum`, `step`. -/
structure IntLimits where
  minimum : Option Int
  maximum : Option Int
  step : Option Int
  deriving DecidableEq

/-- `IntLimitsValidator.__init__`'s guard: a min or a max is required. -/
def intLimitsNew (min max step : Option Int) : Except String IntLimits :=
  match min, max with
  | none, none => .error "An IntLimitsValidator must have a min or max"
  | _, _ => .ok ⟨min, max, step⟩

/-- `_validate_range`. -/
def _validate_range (mn mx v : Int) : Bool :=
  decide (mn ≤ v) && decide (v ≤ mx)

/-- `_validate_range_and_step`. -/
def _validate_range_and_step (mn mx st v : Int) : Bool :=
  decide (mn ≤ v) && decide (v ≤ mx) && decide ((v - mn) % st = 0)

/-- `_validate_larger`. -/
def _validate_larger (mn v : Int) : Bool := decide (mn ≤ v)

/-- `_validate_larger_and_step`. -/
def _validate_larger_and_step (mn st v : Int) : Bool :=
  decide (mn ≤ v) && decide ((v - mn) % st = 0)

/-- `_validate_smaller`. -/
def _validate_smaller (mx v : Int) : Bool := decide (v ≤ mx)

/-- `_validate_smaller_and_step`. -/
def _validate_smaller_and_step (mx st v : Int) : Bool :=
  decide (v ≤ mx) && decide ((v - mx) % st = 0)

/-- The `validate` method selected by `__init__`'s dispatch tree (the
`min = max = None` state is unreachable past the constructor guard and
validates nothing). -/
def IntLimits.validate (l : IntLimits) (v : Int) : Bool :=
  match l.minimum, l.maximum with
  | some mn, some mx =>
    match l.step with
    | some st =>
      if st ≠ 0 then _validate_range_and_step mn mx st v
      else _validate_range mn mx v
    | none => _validate_range mn mx v
  | some mn, none =>
    match l.step with
    | some st =>
      if st ≠ 0 then _validate_larger_and_step mn st v
      else _validate_larger mn v
    | none => _validate_larger mn v
  | none, some mx =>
    match l.step with
    | some st =>
      if st ≠ 0 then _validate_smaller_and_step mx st v
      else _validate_smaller mx v
    | none => _validate_smaller mx v
  | none, none => false

/-- C9: the validator built with `min = 1`, `max = 4`, `step = 2` accepts
exactly the integers `v` with `1 ≤ v ≤ 4` and `v - 1` divisible by 2;
concretely 1 and 3 pass while 0, 2 and 4 fail. -/
theorem int_limits_one_four_two :
    intLimitsNew (some 1) (some 4) (some 2) =
      .ok ⟨some 1, some 4, some 2⟩ ∧
    (∀ v : Int, IntLimits.validate ⟨some 1, some 4, some 2⟩ v = true ↔
      (1 ≤ v ∧ v ≤ 4 ∧ (v - 1) % 2 = 0)) ∧
    IntLimits.validate ⟨some 1, some 4, some 2⟩ 1 = true ∧
    IntLimits.validate ⟨some 1, some 4, some 2⟩ 3 = true ∧
    IntLimits.validate ⟨some 1, some 4, some 2⟩ 0 = false ∧
    IntLimits.validate ⟨some 1, some 4, some 2⟩ 2 = false ∧
    IntLimits.validate ⟨some 1, some 4, some 2⟩ 4 = false := by
  refine ⟨rfl, ?_, by decide, by decide, by decide, by decide, by decide⟩
  intro v
  simp [IntLimits.validate, _validate_range_and_step, and_assoc]
